import Mathlib

set_option maxHeartbeats 1000000

/- Shallow embedding of the log-structured key-value store implemented in
src/datastore/db.go (package datastore).  Files are modelled by their decoded
frame sequences, the in-memory hash index by an association list, and the
engine state by the `Db` structure below.  The record codec
(`entry.Encode` / `entry.DecodeFromReader`) lives in a source file that is
not part of src/, so it is modelled from the spec where noted. -/

/-- One key/value record, mirroring `entry` in the datastore package. -/
structure entry where
  key : String
  value : String
deriving DecidableEq

/-- Modelled from the spec: the record codec (`entry.Encode`, whose source
file is missing from src/) emits a self-delimited, length-prefixed frame:
three 4-byte length fields followed by the key bytes and the value bytes, so
an encoded frame occupies `12 + |key| + |value|` bytes, string sizes measured
in UTF-8 bytes. -/
def encLen (e : entry) : Nat := 12 + e.key.utf8ByteSize + e.value.utf8ByteSize

/-- Total byte length of a sequence of encoded frames. -/
def byteLen (f : List entry) : Nat := (f.map encLen).sum

/-- Modelled from the spec: decoding one frame at byte offset `o` of a file
whose sound content is the frame list `f` (`entry.DecodeFromReader` after a
seek, as used by `getFromFile` in db.go).  Decoding succeeds exactly when `o`
is the start offset of one of the frames — the codec is length-prefixed and
self-delimited, so a read from a frame boundary yields that frame — and
fails at any other offset (inside a frame, inside a torn tail, or past the
end of the file). -/
def decodeAt : List entry → Nat → Option entry
  | [], _ => none
  | e :: rest, o =>
    if o = 0 then some e
    else if o < encLen e then none
    else decodeAt rest (o - encLen e)

/-- An on-disk file: its sound frames plus the number of residual bytes of a
partial (torn) trailing frame; `torn = 0` means the file is clean.  Modelled
from the spec: `entry.DecodeFromReader` reports end-of-stream with zero bytes
consumed at a clean end of file, and end-of-stream with a nonzero consumed
count when it runs into a torn tail. -/
structure DiskFile where
  frames : List entry
  torn : Nat
deriving DecidableEq

/-- Lookup in a Go `map[string]α` modelled as an association list. -/
def lookupA {α : Type} : List (String × α) → String → Option α
  | [], _ => none
  | (k', v) :: rest, k => if k' = k then some v else lookupA rest k

/-- Store `m[k] = v` in a Go `map[string]α` modelled as an association
list: replace the binding in place if the key is present, append otherwise. -/
def updA {α : Type} : List (String × α) → String → α → List (String × α)
  | [], k, v => [(k, v)]
  | (k', v') :: rest, k, v =>
    if k' = k then (k, v) :: rest else (k', v') :: updA rest k v

/-- A closed segment file: its numeric name suffix (the file is named
`segment-<suffix>` on disk) and its content.  `Db.segments` in db.go keeps
the file names; the suffix is the information the engine uses. -/
structure Seg where
  suffix : Nat
  file : DiskFile
deriving DecidableEq

/-- The engine state `Db` of db.go: the current file (`out`), the writer's
offset `outOffset`, the rotation threshold, the `hashIndex` (key to byte
offset), and the ordered list of closed segments. -/
structure Db where
  current : DiskFile
  outOffset : Nat
  maxSegmentSize : Nat
  index : List (String × Nat)
  segments : List Seg
deriving DecidableEq

/-- `db.getCurrentFileSize()`: the stat size of the current file, which
includes any torn tail bytes. -/
def Db.currentSizeB (db : Db) : Nat := byteLen db.current.frames + db.current.torn

/-- `rotateSegment` in db.go: close the current file, rename it to
`segment-<t>` (rename preserves contents, hence offsets), record the new
segment name at the end of `db.segments`, open a fresh empty current file and
reset `outOffset` to zero.  `t` stands for the `time.Now().UnixNano()`
timestamp taken at the rotation. -/
def Db.rotateSegment (db : Db) (t : Nat) : Db :=
  { db with
    segments := db.segments ++ [⟨t, db.current⟩]
    current := ⟨[], 0⟩
    outOffset := 0 }

/-- `performWrite` in db.go: stat the current file, encode the entry, rotate
first when the append would push the file past `maxSegmentSize`, append the
frame, set `index[key]` to the pre-append `outOffset` and advance
`outOffset` by the frame length. -/
def Db.performWrite (db : Db) (t : Nat) (key value : String) : Db :=
  let e : entry := ⟨key, value⟩
  let L := encLen e
  let db1 := if db.currentSizeB + L > db.maxSegmentSize then db.rotateSegment t else db
  { db1 with
    current := ⟨db1.current.frames ++ [e], db1.current.torn⟩
    index := updA db1.index key db1.outOffset
    outOffset := db1.outOffset + L }

/-- `getFromFile` in db.go: open the file, seek to `pos`, decode one record
and return its value; any open/seek/decode failure is an error, collapsed to
`none` here because `Get` treats every failure the same way (fall through). -/
def getFromFile (f : DiskFile) (pos : Nat) : Option String :=
  (decodeAt f.frames pos).map entry.value

/-- The segment-probing loop of `Get` in db.go: try each segment at the same
offset and return the first value that decodes.  `Get` iterates
`db.segments` from the last element down to the first, so this function is
applied to the reversed list. -/
def probeList : List Seg → Nat → Option String
  | [], _ => none
  | s :: rest, pos =>
    match getFromFile s.file pos with
    | some v => some v
    | none => probeList rest pos

/-- `Get` in db.go: look the key up in the index ( `none` models
`ErrNotFound`), then try the current file at the stored offset, then each
segment from newest to oldest at the same offset; return the first value
that decodes, or `none` (`ErrNotFound`) when nothing does. -/
def Db.Get (db : Db) (key : String) : Option String :=
  match lookupA db.index key with
  | none => none
  | some pos =>
    match getFromFile db.current pos with
    | some v => some v
    | none => probeList db.segments.reverse pos

/-- `Size` in db.go: the stat size of the current file only. -/
def Db.Size (db : Db) : Nat := db.currentSizeB

/-- The record-walking loop shared by `recoverFromFile`,
`recoverFromCurrentFile` and `rebuildCurrentIndex` in db.go: decode records
in order, set `index[record.key] = offset` and advance the offset by the
consumed byte count; returns the final index and the final offset. -/
def recFile : List entry → List (String × Nat) → Nat → List (String × Nat) × Nat
  | [], idx, off => (idx, off)
  | e :: rest, idx, off => recFile rest (updA idx e.key off) (off + encLen e)

/-- `recoverFromFile` in db.go: walk the file record by record updating the
index; when the decoder hits end-of-stream having consumed a nonzero number
of bytes (a torn trailing frame) the walk fails with
`corrupted file: <name>`, otherwise it ends cleanly at the record boundary. -/
def recoverFromFile (name : String) (f : DiskFile) (idx : List (String × Nat)) :
    Except String (List (String × Nat)) :=
  if f.torn ≠ 0 then
    Except.error ("corrupted file: " ++ name)
  else
    Except.ok (recFile f.frames idx 0).1

/-- `recoverFromCurrentFile` in db.go: the same walk over the current file
(named `current-data`), additionally returning the final offset, which
becomes the writer's starting `outOffset`. -/
def recoverCurrent (f : DiskFile) (idx : List (String × Nat)) :
    Except String (List (String × Nat) × Nat) :=
  if f.torn ≠ 0 then
    Except.error ("corrupted file: current-data")
  else
    Except.ok (recFile f.frames idx 0)

/-- A directory entry as classified by `recover` in db.go, which looks only
at file names: `seg n` is a file named `segment-<n>` (the numeric suffix `n`
is what `extractSegmentNumber` parses out), `cur` is the file named
`current-data`, `temp n` is a leftover `temp-merged-<n>` file, and `other`
is any file with an unrecognised name. -/
inductive DEnt
  | seg (n : Nat) (f : DiskFile)
  | cur (f : DiskFile)
  | temp (n : Nat) (f : DiskFile)
  | other (name : String) (f : DiskFile)
deriving DecidableEq

/-- The segment files found by `recover`'s directory scan (names with the
`segment-` marker), in directory order. -/
def segsOf : List DEnt → List Seg
  | [] => []
  | DEnt.seg n f :: rest => ⟨n, f⟩ :: segsOf rest
  | _ :: rest => segsOf rest

/-- Whether the directory already contains the `current-data` file. -/
def hasCur : List DEnt → Bool
  | [] => false
  | DEnt.cur _ :: _ => true
  | _ :: rest => hasCur rest

/-- The content of the `current-data` file; `OpenWithSegmentSize` creates it
empty when it does not exist. -/
def curOf : List DEnt → DiskFile
  | [] => ⟨[], 0⟩
  | DEnt.cur f :: _ => f
  | _ :: rest => curOf rest

/-- Insert a segment into a list sorted by ascending numeric suffix. -/
def insSeg (s : Seg) : List Seg → List Seg
  | [] => [s]
  | x :: xs => if s.suffix ≤ x.suffix then s :: x :: xs else x :: insSeg s xs

/-- The `sort.Slice` call in `recover`: order the segment files by ascending
numeric suffix (modelled by insertion sort; suffixes of distinct segments
are distinct in every reachable state, so any correct sort agrees). -/
def insSort : List Seg → List Seg
  | [] => []
  | x :: xs => insSeg x (insSort xs)

/-- The segment loop of `recover` in db.go: replay each segment in order
through `recoverFromFile`, aborting on the first corruption error. -/
def recoverAll : List Seg → List (String × Nat) → Except String (List (String × Nat))
  | [], idx => Except.ok idx
  | s :: rest, idx =>
    match recoverFromFile ("segment-" ++ toString s.suffix) s.file idx with
    | Except.error msg => Except.error msg
    | Except.ok idx' => recoverAll rest idx'

/-- `OpenWithSegmentSize` in db.go: create/open the current file, then run
`recover` — scan the directory for `segment-` files, sort them by ascending
numeric suffix, replay them and finally the current file; a corruption error
aborts the open.  On success the engine starts with the rebuilt index, the
recovered `outOffset`, and the sorted segment list. -/
def openDb (d : List DEnt) (maxSeg : Nat) : Except String Db :=
  let segs := insSort (segsOf d)
  let cur := curOf d
  match recoverAll segs [] with
  | Except.error msg => Except.error msg
  | Except.ok idx =>
    match recoverCurrent cur idx with
    | Except.error msg => Except.error msg
    | Except.ok r =>
      Except.ok
        { current := cur
          outOffset := r.2
          maxSegmentSize := maxSeg
          index := r.1
          segments := segs }

/-- The filesystem effect of `OpenWithSegmentSize`: `os.MkdirAll` plus
opening `current-data` with `O_CREATE` (added when absent).  Nothing on the
open path (`OpenWithSegmentSize`, `recover`, `recoverFromFile`,
`recoverFromCurrentFile`) removes a file — the only `os.Remove` calls in
db.go are inside `MergeSegments` — so every existing entry survives. -/
def openDirAfter (d : List DEnt) : List DEnt :=
  if hasCur d then d else d ++ [DEnt.cur ⟨[], 0⟩]

/-- `readSegmentIntoMap` in db.go: decode the segment record by record and
store `data[record.key] = record.value`; the loop breaks as soon as the
decoder reports end-of-stream, without checking the consumed-byte count, so
a torn trailing frame is silently dropped rather than reported. -/
def readSegIntoMap (f : DiskFile) (data : List (String × String)) :
    List (String × String) :=
  f.frames.foldl (fun d e => updA d e.key e.value) data

/-- The `mergedData` accumulation of `MergeSegments` in db.go: fold every
segment, oldest to newest, into one key-to-latest-value map. -/
def mergeData (db : Db) : List (String × String) :=
  db.segments.foldl (fun d s => readSegIntoMap s.file d) []

/-- The write-out loop of `MergeSegments` in db.go
(`for key, value := range mergedData`): stream the merged records into the
temporary file in the order `order` in which Go happens to iterate the map,
recording in `newIndex` the offset at which each key's record begins and
advancing the offset by the encoded length.  Returns the written frames, the
provisional index and the final offset.  Keys of `order` that are absent
from the map are skipped; a Go map range visits exactly the keys of the map
(see `validOrder`). -/
def writeMerged : List String → List (String × String) → Nat → List (String × Nat) →
    List entry × List (String × Nat) × Nat
  | [], _, off, idx => ([], idx, off)
  | k :: rest, data, off, idx =>
    match lookupA data k with
    | none => writeMerged rest data off idx
    | some v =>
      let e : entry := ⟨k, v⟩
      let r := writeMerged rest data (off + encLen e) (updA idx k off)
      (e :: r.1, r.2.1, r.2.2)

/-- `order` is a possible iteration order of Go's `range` over the map
`data`: it visits each key of the map exactly once and nothing else. -/
def validOrder (order : List String) (data : List (String × String)) : Prop :=
  order.Nodup ∧ (∀ k ∈ order, (lookupA data k).isSome) ∧ ∀ kv ∈ data, kv.1 ∈ order

/-- `MergeSegments` in db.go: with fewer than two segments, return with no
effect.  Otherwise fold all segments into `mergedData`, stream it into a
temporary file (written as the frames `w.1` with provisional index `w.2.1`),
rename it to `segment-<t>`, delete the old segments, replace the segment
list, rebuild the current file's index, and update `db.index`: keys not
present in the current file take the new segment's locator, keys present in
the current file keep (are overwritten with) their current-file locators.
`t` is the `time.Now().UnixNano()` timestamp of the new segment; `order` is
the map iteration order (see `validOrder`). -/
def Db.MergeSegments (db : Db) (t : Nat) (order : List String) : Db :=
  if db.segments.length < 2 then db
  else
    let w := writeMerged order (mergeData db) 0 []
    let currentIndex := (recFile db.current.frames [] 0).1
    let idx1 := w.2.1.foldl
      (fun idx kv =>
        if (lookupA currentIndex kv.1).isSome then idx else updA idx kv.1 kv.2)
      db.index
    let idx2 := currentIndex.foldl (fun idx kv => updA idx kv.1 kv.2) idx1
    { db with segments := [⟨t, ⟨w.1, 0⟩⟩], index := idx2 }

/-- A request on the writer queue (`writeRequest` in db.go, minus the reply
channel). -/
structure WriteReq where
  key : String
  value : String
deriving DecidableEq

/-- The shared state of the request funnel of db.go: the engine, the
contents of the buffered channel `writeQueue` (capacity 100, FIFO), whether
`close(db.shutdown)` has happened (`Close` begins by closing it), whether
`writerLoop` has returned, and the requests the writer has performed, in
order. -/
structure EngineState where
  db : Db
  queue : List WriteReq
  closed : Bool
  writerDone : Bool
  written : List WriteReq
deriving DecidableEq

/-- One scheduler step of the `Put` / `writerLoop` / `Close` machinery in
db.go.

* `enqueue`: `Put`'s `select` sends the request into `writeQueue` when the
  buffer has room.  There is deliberately no `closed = false` hypothesis:
  after `close(db.shutdown)` both `select` cases are ready and Go chooses
  between them pseudo-randomly, so the send can still win.
* `refuseClosed`: `Put`'s `select` takes the `<-db.shutdown` case and
  returns the `database is shutting down` (EngineClosed) error; the engine
  state is unchanged.
* `serve`: `writerLoop` receives the oldest queued request, runs
  `performWrite` (with rotation timestamp `t`) and replies; it does so both
  before shutdown and while draining after shutdown.
* `signalShutdown`: `Close` closes `db.shutdown`.
* `exitWriter`: after shutdown, `writerLoop`'s drain loop hits its
  `default` case — possible only when the queue is momentarily empty — and
  returns. -/
inductive WStep : EngineState → EngineState → Prop
  | enqueue (s : EngineState) (r : WriteReq) (hq : s.queue.length < 100) :
      WStep s { s with queue := s.queue ++ [r] }
  | refuseClosed (s : EngineState) (h : s.closed = true) : WStep s s
  | serve (s : EngineState) (r : WriteReq) (rest : List WriteReq) (t : Nat)
      (hq : s.queue = r :: rest) (hw : s.writerDone = false) :
      WStep s { s with db := s.db.performWrite t r.key r.value
                       queue := rest
                       written := s.written ++ [r] }
  | signalShutdown (s : EngineState) : WStep s { s with closed := true }
  | exitWriter (s : EngineState) (hc : s.closed = true) (hq : s.queue = [])
      (hw : s.writerDone = false) :
      WStep s { s with writerDone := true }

/-- Finitely many scheduler steps. -/
inductive WSteps : EngineState → EngineState → Prop
  | refl (s : EngineState) : WSteps s s
  | step {s s' s'' : EngineState} : WStep s s' → WSteps s' s'' → WSteps s s''

/-- The recovery fold over a list of files (each walked from offset 0, the
index threaded through): the index produced by replaying `files` in order on
top of `idx`. -/
def recAll (files : List (List entry)) (idx : List (String × Nat)) :
    List (String × Nat) :=
  files.foldl (fun i f => (recFile f i 0).1) idx

/-- The engine's files in global append order: segments oldest to newest,
then the current file. -/
def Db.allFrames (db : Db) : List (List entry) :=
  db.segments.map (fun s => s.file.frames) ++ [db.current.frames]

/-- The last record with key `k` in a file, together with its byte offset
(`off` is the offset of the start of the file slice being examined). -/
def lastHit : List entry → String → Nat → Option (Nat × entry)
  | [], _, _ => none
  | e :: rest, k, off =>
    match lastHit rest k (off + encLen e) with
    | some r => some r
    | none => if e.key = k then some (off, e) else none

/-- The authoritative record for key `k` over a list of files in global
append order: the last record with key `k` inside the last file containing
`k`, returned together with that file and the record's offset in it. -/
def gHit : List (List entry) → String → Option (List entry × Nat × entry)
  | [], _ => none
  | f :: rest, k =>
    match gHit rest k with
    | some r => some r
    | none =>
      match lastHit f k 0 with
      | some r => some (f, r.1, r.2)
      | none => none

/-- The value of the authoritative (latest, by global append order) record
for key `k`. -/
def latestVal (fs : List (List entry)) (k : String) : Option String :=
  match gHit fs k with
  | some r => some r.2.2.value
  | none => none

/-- The engine-state invariant: all files on disk are clean, the segment
list is strictly ascending by numeric suffix, the writer's offset equals the
current file's size, and the index has exactly the lookups that the recovery
fold over the files in global append order produces (so each key maps to the
offset of its latest record inside the last file containing it). -/
structure DbInv (db : Db) : Prop where
  clean_segs : ∀ s ∈ db.segments, s.file.torn = 0
  clean_cur : db.current.torn = 0
  sorted : db.segments.Pairwise (fun a b => a.suffix < b.suffix)
  off_eq : db.outOffset = byteLen db.current.frames
  good : ∀ k, lookupA db.index k = lookupA (recAll db.allFrames []) k

/-- The keys of an association list. -/
def keysA {α : Type} (l : List (String × α)) : List String := l.map Prod.fst

/-- Executable check that two indices have the same lookups (it suffices to
compare them on the keys occurring in either). -/
def idxCheck (a b : List (String × Nat)) : Bool :=
  (keysA a ++ keysA b).all (fun k => lookupA a k == lookupA b k)

/-- Left-biased choice on `Option`, used to phrase "the later file wins". -/
def oor {α : Type} : Option α → Option α → Option α
  | some a, _ => some a
  | none, b => b

theorem oor_some {α : Type} (a : α) (b : Option α) : oor (some a) b = some a := rfl

theorem oor_none {α : Type} (b : Option α) : oor none b = b := rfl

theorem lookupA_updA {α : Type} (l : List (String × α)) (k : String) (v : α)
    (k' : String) :
    lookupA (updA l k v) k' = if k = k' then some v else lookupA l k' := by
  induction l with
  | nil => simp [updA, lookupA]
  | cons p rest ih =>
    obtain ⟨k0, v0⟩ := p
    by_cases h0 : k0 = k
    · subst h0
      by_cases h1 : k0 = k'
      · subst h1; simp [updA, lookupA]
      · simp [updA, lookupA, h1]
    · by_cases h1 : k0 = k'
      · subst h1
        have : ¬ k = k0 := fun h => h0 h.symm
        simp [updA, lookupA, h0, this]
      · simp [updA, lookupA, h0, h1, ih]

theorem keysA_cons {α : Type} (p : String × α) (l : List (String × α)) :
    keysA (p :: l) = p.1 :: keysA l := rfl

theorem updA_cons {α : Type} (k0 k : String) (v0 v : α) (rest : List (String × α)) :
    updA ((k0, v0) :: rest) k v =
      if k0 = k then (k, v) :: rest else (k0, v0) :: updA rest k v := rfl

theorem lookupA_eq_none_iff {α : Type} (l : List (String × α)) (k : String) :
    lookupA l k = none ↔ k ∉ keysA l := by
  induction l with
  | nil => simp [lookupA, keysA]
  | cons p rest ih =>
    obtain ⟨k0, v0⟩ := p
    rw [keysA_cons, List.mem_cons]
    by_cases h0 : k0 = k
    · subst h0; simp [lookupA]
    · rw [lookupA, if_neg h0, ih]
      have hne : ¬ k = k0 := fun he => h0 he.symm
      tauto

theorem keysA_updA_mem {α : Type} (l : List (String × α)) (k : String) (v : α)
    (h : k ∈ keysA l) : keysA (updA l k v) = keysA l := by
  induction l with
  | nil => simp [keysA] at h
  | cons p rest ih =>
    obtain ⟨k0, v0⟩ := p
    by_cases h0 : k0 = k
    · subst h0; rw [updA_cons, if_pos rfl, keysA_cons, keysA_cons]
    · have hk : k ∈ keysA rest := by
        rw [keysA_cons, List.mem_cons] at h
        rcases h with h | h
        · exact absurd h.symm h0
        · exact h
      rw [updA_cons, if_neg h0, keysA_cons, keysA_cons, ih hk]

theorem keysA_updA_not_mem {α : Type} (l : List (String × α)) (k : String) (v : α)
    (h : k ∉ keysA l) : keysA (updA l k v) = keysA l ++ [k] := by
  induction l with
  | nil => simp [updA, keysA]
  | cons p rest ih =>
    obtain ⟨k0, v0⟩ := p
    have h0 : k0 ≠ k := by
      intro he; exact h (by rw [keysA_cons, he]; exact List.mem_cons_self _ _)
    have hk : k ∉ keysA rest := by
      intro hm; exact h (by rw [keysA_cons]; exact List.mem_cons_of_mem _ hm)
    rw [updA_cons, if_neg h0, keysA_cons, keysA_cons, ih hk, List.cons_append]

theorem nodup_updA {α : Type} (l : List (String × α)) (k : String) (v : α)
    (h : (keysA l).Nodup) : (keysA (updA l k v)).Nodup := by
  by_cases hm : k ∈ keysA l
  · rw [keysA_updA_mem l k v hm]; exact h
  · rw [keysA_updA_not_mem l k v hm]
    simpa [List.nodup_append] using ⟨h, hm⟩

theorem recFile_append (a b : List entry) (idx : List (String × Nat)) (off : Nat) :
    recFile (a ++ b) idx off = recFile b (recFile a idx off).1 (recFile a idx off).2 := by
  induction a generalizing idx off with
  | nil => simp [recFile]
  | cons e rest ih => simp [recFile, ih]

theorem recFile_offset (f : List entry) (idx : List (String × Nat)) (off : Nat) :
    (recFile f idx off).2 = off + byteLen f := by
  induction f generalizing idx off with
  | nil => simp [recFile, byteLen]
  | cons e rest ih => simp [recFile, ih, byteLen]; omega

theorem nodup_recFile (f : List entry) (idx : List (String × Nat)) (off : Nat)
    (h : (keysA idx).Nodup) : (keysA (recFile f idx off).1).Nodup := by
  induction f generalizing idx off with
  | nil => simpa [recFile]
  | cons e rest ih => exact ih _ _ (nodup_updA _ _ _ h)

theorem lookupA_recFile (f : List entry) (idx : List (String × Nat)) (off : Nat)
    (k : String) :
    lookupA (recFile f idx off).1 k =
      oor ((lastHit f k off).map Prod.fst) (lookupA idx k) := by
  induction f generalizing idx off with
  | nil => simp [recFile, lastHit, oor]
  | cons e rest ih =>
    rw [recFile, ih, lastHit]
    cases h : lastHit rest k (off + encLen e) with
    | some r => simp [oor]
    | none =>
      by_cases hk : e.key = k
      · simp [oor, hk, lookupA_updA]
      · simp [oor, hk, lookupA_updA]

theorem lastHit_spec (f : List entry) (k : String) (off o : Nat) (e : entry)
    (h : lastHit f k off = some (o, e)) :
    e.key = k ∧ off ≤ o ∧ decodeAt f (o - off) = some e := by
  induction f generalizing off with
  | nil => simp [lastHit] at h
  | cons e0 rest ih =>
    rw [lastHit] at h
    cases h0 : lastHit rest k (off + encLen e0) with
    | some r =>
      rw [h0] at h
      cases h
      obtain ⟨hk, hle, hdec⟩ := ih (off + encLen e0) h0
      have hL : 12 ≤ encLen e0 := by simp [encLen]; omega
      refine ⟨hk, by omega, ?_⟩
      rw [decodeAt]
      have h1 : ¬ (o - off = 0) := by omega
      have h2 : ¬ (o - off < encLen e0) := by omega
      simp only [h1, if_false, h2]
      have : o - off - encLen e0 = o - (off + encLen e0) := by omega
      rw [this]
      exact hdec
    | none =>
      rw [h0] at h
      by_cases hk : e0.key = k
      · simp [hk] at h
        obtain ⟨ho, he⟩ := h
        subst ho
        subst he
        exact ⟨hk, Nat.le_refl _, by simp [decodeAt]⟩
      · simp [hk] at h

theorem lookupA_recAll (fs : List (List entry)) (idx : List (String × Nat))
    (k : String) :
    lookupA (recAll fs idx) k =
      oor ((gHit fs k).map (fun r => r.2.1)) (lookupA idx k) := by
  induction fs generalizing idx with
  | nil => simp [recAll, gHit, oor]
  | cons f rest ih =>
    have hstep : recAll (f :: rest) idx = recAll rest (recFile f idx 0).1 := by
      simp [recAll]
    rw [hstep, ih, gHit]
    cases h : gHit rest k with
    | some r => simp [oor]
    | none =>
      rw [lookupA_recFile]
      cases h0 : lastHit f k 0 with
      | some r => simp [oor]
      | none => simp [oor]

theorem gHit_spec (fs : List (List entry)) (k : String) (f : List entry)
    (o : Nat) (e : entry) (h : gHit fs k = some (f, o, e)) :
    f ∈ fs ∧ decodeAt f o = some e ∧ e.key = k := by
  induction fs with
  | nil => simp [gHit] at h
  | cons f0 rest ih =>
    rw [gHit] at h
    cases h0 : gHit rest k with
    | some r =>
      rw [h0] at h
      cases h
      obtain ⟨hm, hd, hk⟩ := ih h0
      exact ⟨List.mem_cons_of_mem _ hm, hd, hk⟩
    | none =>
      rw [h0] at h
      cases h1 : lastHit f0 k 0 with
      | some r =>
        rw [h1] at h
        simp only [Option.some.injEq, Prod.mk.injEq] at h
        obtain ⟨hf, ho, he⟩ := h
        rw [← hf, ← ho, ← he]
        obtain ⟨hk, _, hd⟩ := lastHit_spec f0 k 0 r.1 r.2 (by exact h1)
        exact ⟨List.mem_cons_self _ _, by simpa using hd, hk⟩
      | none => rw [h1] at h; cases h

theorem byteLen_append (a b : List entry) :
    byteLen (a ++ b) = byteLen a + byteLen b := by
  simp [byteLen]

theorem recAll_concat (fs : List (List entry)) (f : List entry)
    (idx : List (String × Nat)) :
    recAll (fs ++ [f]) idx = (recFile f (recAll fs idx) 0).1 := by
  simp [recAll, List.foldl_append]

theorem recFile_single (e : entry) (idx : List (String × Nat)) (off : Nat) :
    recFile [e] idx off = (updA idx e.key off, off + encLen e) := rfl

/-- Unfolding of `performWrite` on the rotation path: when the stat size plus
the frame length exceeds `maxSegmentSize`, the writer first rotates (the old
current file becomes the newest segment, a fresh empty current file is
opened, the offset resets to zero) and then appends, indexing the key at
offset zero of the new current file. -/
theorem performWrite_rot (db : Db) (t : Nat) (k v : String)
    (h : db.currentSizeB + encLen ⟨k, v⟩ > db.maxSegmentSize) :
    db.performWrite t k v =
      { db with
        segments := db.segments ++ [⟨t, db.current⟩]
        current := ⟨[⟨k, v⟩], 0⟩
        index := updA db.index k 0
        outOffset := encLen ⟨k, v⟩ } := by
  simp [Db.performWrite, Db.rotateSegment, if_pos h]

/-- Unfolding of `performWrite` on the plain path: no rotation, the frame is
appended to the current file and the key indexed at the old `outOffset`. -/
theorem performWrite_norot (db : Db) (t : Nat) (k v : String)
    (h : ¬ db.currentSizeB + encLen ⟨k, v⟩ > db.maxSegmentSize) :
    db.performWrite t k v =
      { db with
        current := ⟨db.current.frames ++ [⟨k, v⟩], db.current.torn⟩
        index := updA db.index k db.outOffset
        outOffset := db.outOffset + encLen ⟨k, v⟩ } := by
  simp [Db.performWrite, if_neg h]

theorem dbInv_performWrite (db : Db) (t : Nat) (k v : String)
    (h : DbInv db) (hfresh : ∀ s ∈ db.segments, s.suffix < t) :
    DbInv (db.performWrite t k v) := by
  by_cases hrot : db.currentSizeB + encLen ⟨k, v⟩ > db.maxSegmentSize
  · rw [performWrite_rot db t k v hrot]
    refine ⟨?_, ?_, ?_, ?_, ?_⟩
    · intro s hs
      rcases List.mem_append.mp hs with hs | hs
      · exact h.clean_segs s hs
      · have : s = ⟨t, db.current⟩ := by simpa using hs
        rw [this]
        exact h.clean_cur
    · rfl
    · rw [List.pairwise_append]
      refine ⟨h.sorted, List.pairwise_singleton _ _, ?_⟩
      intro a ha b hb
      have : b = ⟨t, db.current⟩ := by simpa using hb
      rw [this]
      exact hfresh a ha
    · simp [byteLen]
    · intro k'
      have hAF :
          ({ db with
             segments := db.segments ++ [⟨t, db.current⟩]
             current := ⟨[⟨k, v⟩], 0⟩
             index := updA db.index k 0
             outOffset := encLen ⟨k, v⟩ } : Db).allFrames =
            db.allFrames ++ [[⟨k, v⟩]] := by
        simp [Db.allFrames]
      rw [hAF, recAll_concat, recFile_single]
      simp only []
      rw [lookupA_updA, lookupA_updA]
      by_cases hk : k = k'
      · simp [hk]
      · simp [hk, h.good k']
  · rw [performWrite_norot db t k v hrot]
    refine ⟨h.clean_segs, h.clean_cur, h.sorted, ?_, ?_⟩
    · rw [byteLen_append, h.off_eq]
      simp [byteLen]
    · intro k'
      have hAF :
          ({ db with
             current := ⟨db.current.frames ++ [⟨k, v⟩], db.current.torn⟩
             index := updA db.index k db.outOffset
             outOffset := db.outOffset + encLen ⟨k, v⟩ } : Db).allFrames =
            (db.segments.map (fun s => s.file.frames)) ++
              [db.current.frames ++ [⟨k, v⟩]] := by
        simp [Db.allFrames]
      rw [hAF, recAll_concat, recFile_append, recFile_single]
      simp only []
      have hold : db.allFrames =
          (db.segments.map (fun s => s.file.frames)) ++ [db.current.frames] := rfl
      rw [recFile_offset]
      have hrec : (recFile db.current.frames
          (recAll (db.segments.map (fun s => s.file.frames)) []) 0).1 =
          recAll db.allFrames [] := by
        rw [hold, recAll_concat]
      rw [hrec, lookupA_updA, lookupA_updA]
      by_cases hk : k = k'
      · simp [hk, h.off_eq]
      · simp [hk, h.good k']

theorem lookupA_mem {α : Type} (l : List (String × α)) (k : String) (v : α)
    (h : lookupA l k = some v) : (k, v) ∈ l := by
  induction l with
  | nil => simp [lookupA] at h
  | cons p rest ih =>
    obtain ⟨k0, v0⟩ := p
    rw [lookupA] at h
    by_cases h0 : k0 = k
    · rw [if_pos h0] at h
      cases h
      rw [h0]
      exact List.mem_cons_self _ _
    · rw [if_neg h0] at h
      exact List.mem_cons_of_mem _ (ih h)

theorem lastHit_shift (f : List entry) (k : String) (off : Nat) :
    lastHit f k off = (lastHit f k 0).map (fun r => (off + r.1, r.2)) := by
  induction f generalizing off with
  | nil => simp [lastHit]
  | cons e rest ih =>
    rw [lastHit, lastHit, ih (off + encLen e), ih (0 + encLen e)]
    cases h : lastHit rest k 0 with
    | some r => simp [Nat.add_assoc, Nat.zero_add]
    | none =>
      by_cases hk : e.key = k
      · simp [hk]
      · simp [hk]

theorem lastHit_none_iff (f : List entry) (k : String) (off : Nat) :
    lastHit f k off = none ↔ ∀ e ∈ f, e.key ≠ k := by
  induction f generalizing off with
  | nil => simp [lastHit]
  | cons e rest ih =>
    rw [lastHit]
    cases h : lastHit rest k (off + encLen e) with
    | some r =>
      simp only []
      constructor
      · intro hc; cases hc
      · intro hall
        have : lastHit rest k (off + encLen e) = none :=
          (ih _).mpr (fun e' he' => hall e' (List.mem_cons_of_mem _ he'))
        rw [this] at h; cases h
    | none =>
      have hrest : ∀ e' ∈ rest, e'.key ≠ k := (ih _).mp h
      by_cases hk : e.key = k
      · simp [hk]
      · simp [hk, hrest]
        intro e' he'
        exact hrest e' he'

theorem lastHit_mem (f : List entry) (k : String) (off o : Nat) (e : entry)
    (h : lastHit f k off = some (o, e)) : e ∈ f := by
  induction f generalizing off with
  | nil => simp [lastHit] at h
  | cons e0 rest ih =>
    rw [lastHit] at h
    cases h0 : lastHit rest k (off + encLen e0) with
    | some r =>
      rw [h0] at h
      cases h
      exact List.mem_cons_of_mem _ (ih _ h0)
    | none =>
      rw [h0] at h
      by_cases hk : e0.key = k
      · simp [hk] at h
        rw [← h.2]
        exact List.mem_cons_self _ _
      · simp [hk] at h

theorem gHit_append (a b : List (List entry)) (k : String) :
    gHit (a ++ b) k =
      match gHit b k with
      | some r => some r
      | none => gHit a k := by
  induction a with
  | nil =>
    cases h : gHit b k <;> simp [gHit, h]
  | cons f rest ih =>
    rw [List.cons_append, gHit, ih, gHit]
    cases h : gHit b k with
    | some r => simp
    | none => simp

theorem lookupA_foldUpd {α : Type} (l base : List (String × α)) (k : String)
    (h : (keysA l).Nodup) :
    lookupA (l.foldl (fun idx kv => updA idx kv.1 kv.2) base) k =
      oor (lookupA l k) (lookupA base k) := by
  induction l generalizing base with
  | nil => simp [lookupA, oor]
  | cons p rest ih =>
    obtain ⟨k0, v0⟩ := p
    rw [keysA_cons, List.nodup_cons] at h
    obtain ⟨hk0, hrest⟩ := h
    rw [List.foldl_cons, ih _ hrest, lookupA]
    by_cases h0 : k0 = k
    · subst h0
      have : lookupA rest k0 = none :=
        (lookupA_eq_none_iff rest k0).mpr hk0
      rw [this, if_pos rfl, oor_none, lookupA_updA, if_pos rfl, oor_some]
    · rw [if_neg h0]
      cases hr : lookupA rest k with
      | some v => simp [oor]
      | none =>
        rw [oor_none, oor_none, lookupA_updA, if_neg h0]

theorem lookupA_foldUpdIf {α : Type} (g : String → Bool) (l base : List (String × α))
    (k : String) (h : (keysA l).Nodup) :
    lookupA (l.foldl (fun idx kv => if g kv.1 then idx else updA idx kv.1 kv.2) base) k =
      if g k then lookupA base k else oor (lookupA l k) (lookupA base k) := by
  induction l generalizing base with
  | nil =>
    cases hg : g k <;> simp [lookupA, oor, hg]
  | cons p rest ih =>
    obtain ⟨k0, v0⟩ := p
    rw [keysA_cons, List.nodup_cons] at h
    obtain ⟨hk0, hrest⟩ := h
    rw [List.foldl_cons, ih _ hrest, lookupA]
    by_cases h0 : k0 = k
    · subst h0
      have hnone : lookupA rest k0 = none :=
        (lookupA_eq_none_iff rest k0).mpr hk0
      cases hg : g k0 with
      | true => simp [hg]
      | false =>
        simp [hg, hnone, oor, lookupA_updA]
    · rw [if_neg h0]
      cases hg0 : g k0 with
      | true =>
        cases hg : g k <;> simp [hg]
      | false =>
        have hbase : lookupA (updA base k0 v0) k = lookupA base k := by
          rw [lookupA_updA, if_neg h0]
        cases hg : g k with
        | true => simp [hg, hbase]
        | false =>
          simp only [hg, Bool.false_eq_true, if_false, hbase]

theorem lookupA_foldVal (fr : List entry) (d : List (String × String)) (k : String) :
    lookupA (fr.foldl (fun d e => updA d e.key e.value) d) k =
      oor ((lastHit fr k 0).map (fun r => r.2.value)) (lookupA d k) := by
  induction fr generalizing d with
  | nil => simp [lastHit, oor]
  | cons e rest ih =>
    rw [List.foldl_cons, ih, lastHit, lastHit_shift rest k (0 + encLen e)]
    cases h : lastHit rest k 0 with
    | some r => simp [oor]
    | none =>
      by_cases hk : e.key = k
      · simp [oor, hk, lookupA_updA]
      · simp [oor, hk, lookupA_updA]

theorem lookupA_readSeg (f : DiskFile) (d : List (String × String)) (k : String) :
    lookupA (readSegIntoMap f d) k =
      oor ((lastHit f.frames k 0).map (fun r => r.2.value)) (lookupA d k) :=
  lookupA_foldVal f.frames d k

theorem lookupA_segFold (segs : List Seg) (d : List (String × String)) (k : String) :
    lookupA (segs.foldl (fun d s => readSegIntoMap s.file d) d) k =
      oor ((gHit (segs.map (fun s => s.file.frames)) k).map (fun r => r.2.2.value))
        (lookupA d k) := by
  induction segs generalizing d with
  | nil => simp [gHit, oor]
  | cons s rest ih =>
    rw [List.foldl_cons, ih, List.map_cons, gHit]
    cases h : gHit (rest.map (fun s => s.file.frames)) k with
    | some r => simp [oor]
    | none =>
      rw [lookupA_readSeg]
      cases h0 : lastHit s.file.frames k 0 with
      | some r => simp [oor]
      | none => simp [oor]

theorem writeMerged_frames (order : List String) (data : List (String × String))
    (off : Nat) (idx : List (String × Nat)) :
    (writeMerged order data off idx).1 =
      order.filterMap (fun k => (lookupA data k).map (fun v => (⟨k, v⟩ : entry))) := by
  induction order generalizing off idx with
  | nil => simp [writeMerged]
  | cons k rest ih =>
    rw [writeMerged]
    cases h : lookupA data k with
    | none => simp [h, ih]
    | some v => simp [h, ih]

theorem writeMerged_rec (order : List String) (data : List (String × String))
    (off : Nat) (idx : List (String × Nat)) :
    recFile (writeMerged order data off idx).1 idx off =
      ((writeMerged order data off idx).2.1, (writeMerged order data off idx).2.2) := by
  induction order generalizing off idx with
  | nil => simp [writeMerged, recFile]
  | cons k rest ih =>
    rw [writeMerged]
    cases h : lookupA data k with
    | none => simp [h, ih]
    | some v => simp [h, recFile, ih]

theorem oor_none_right {α : Type} (x : Option α) : oor x none = x := by
  cases x <;> rfl

theorem recAll_two (a b : List entry) (idx : List (String × Nat)) :
    recAll [a, b] idx = (recFile b (recFile a idx 0).1 0).1 := rfl

/-- The provisional output of the merge write-out loop: the frames streamed
into the temporary file, the provisional `newIndex`, and the final offset. -/
def mergeW (db : Db) (order : List String) :
    List entry × List (String × Nat) × Nat :=
  writeMerged order (mergeData db) 0 []

/-- `rebuildCurrentIndex` in db.go: the index built by walking the current
file alone. -/
def curIdx (db : Db) : List (String × Nat) := (recFile db.current.frames [] 0).1

/-- The first index-merging loop of `MergeSegments`: every key of the
provisional index that is not present in the current file is pointed at the
new segment's locator. -/
def mergeIdx1 (db : Db) (order : List String) : List (String × Nat) :=
  (mergeW db order).2.1.foldl
    (fun idx kv =>
      if (lookupA (curIdx db) kv.1).isSome then idx else updA idx kv.1 kv.2)
    db.index

/-- The second index-merging loop of `MergeSegments`: every key present in
the current file keeps (is overwritten with) its current-file locator. -/
def mergeIdx2 (db : Db) (order : List String) : List (String × Nat) :=
  (curIdx db).foldl (fun idx kv => updA idx kv.1 kv.2) (mergeIdx1 db order)

theorem merge_unfold (db : Db) (t : Nat) (order : List String)
    (h2 : ¬ db.segments.length < 2) :
    db.MergeSegments t order =
      { db with
        segments := [⟨t, ⟨(mergeW db order).1, 0⟩⟩]
        index := mergeIdx2 db order } := by
  simp only [Db.MergeSegments, if_neg h2]
  rfl

theorem lookupA_curIdx (db : Db) (k : String) :
    lookupA (curIdx db) k = (lastHit db.current.frames k 0).map Prod.fst := by
  rw [curIdx, lookupA_recFile]
  simp [lookupA, oor_none_right]

theorem nodup_curIdx (db : Db) : (keysA (curIdx db)).Nodup :=
  nodup_recFile _ [] 0 (by simp [keysA])

theorem lookupA_newIdx (db : Db) (order : List String) (k : String) :
    lookupA (mergeW db order).2.1 k =
      (lastHit (mergeW db order).1 k 0).map Prod.fst := by
  have h := writeMerged_rec order (mergeData db) 0 []
  have h1 : (recFile (mergeW db order).1 [] 0).1 = (mergeW db order).2.1 := by
    rw [mergeW]
    rw [h]
  rw [← h1, lookupA_recFile]
  simp [lookupA, oor_none_right]

theorem nodup_newIdx (db : Db) (order : List String) :
    (keysA (mergeW db order).2.1).Nodup := by
  have h := writeMerged_rec order (mergeData db) 0 []
  have h1 : (recFile (mergeW db order).1 [] 0).1 = (mergeW db order).2.1 := by
    rw [mergeW]
    rw [h]
  rw [← h1]
  exact nodup_recFile _ [] 0 (by simp [keysA])

theorem lookupA_mergeData (db : Db) (k : String) :
    lookupA (mergeData db) k =
      (gHit (db.segments.map (fun s => s.file.frames)) k).map
        (fun r => r.2.2.value) := by
  rw [mergeData, lookupA_segFold]
  simp [lookupA, oor_none_right]

theorem mergeData_none_of_noHit (db : Db) (order : List String)
    (hord : validOrder order (mergeData db)) (k : String)
    (hm : lastHit (mergeW db order).1 k 0 = none) :
    lookupA (mergeData db) k = none := by
  cases hd : lookupA (mergeData db) k with
  | none => rfl
  | some v =>
    exfalso
    have hmem : (k, v) ∈ mergeData db := lookupA_mem _ _ _ hd
    have hko : k ∈ order := hord.2.2 (k, v) hmem
    have hfr : (⟨k, v⟩ : entry) ∈ (mergeW db order).1 := by
      rw [mergeW, writeMerged_frames]
      exact List.mem_filterMap.mpr ⟨k, hko, by rw [hd]; rfl⟩
    exact (lastHit_none_iff _ _ _).mp hm ⟨k, v⟩ hfr rfl

theorem dbInv_merge (db : Db) (t : Nat) (order : List String)
    (h : DbInv db) (hord : validOrder order (mergeData db)) :
    DbInv (db.MergeSegments t order) := by
  by_cases h2 : db.segments.length < 2
  · have : db.MergeSegments t order = db := by
      simp only [Db.MergeSegments, if_pos h2]
    rw [this]
    exact h
  · rw [merge_unfold db t order h2]
    refine ⟨?_, h.clean_cur, ?_, h.off_eq, ?_⟩
    · intro s hs
      have : s = ⟨t, ⟨(mergeW db order).1, 0⟩⟩ := by simpa using hs
      rw [this]
    · exact List.pairwise_singleton _ _
    · intro k
      have hAF :
          ({ db with
             segments := [⟨t, ⟨(mergeW db order).1, 0⟩⟩]
             index := mergeIdx2 db order } : Db).allFrames =
            [(mergeW db order).1, db.current.frames] := by
        simp [Db.allFrames]
      rw [hAF, recAll_two]
      rw [lookupA_recFile, lookupA_recFile]
      simp only [lookupA, oor_none_right]
      have hL : lookupA (mergeIdx2 db order) k =
          oor (lookupA (curIdx db) k) (lookupA (mergeIdx1 db order) k) := by
        rw [mergeIdx2]
        exact lookupA_foldUpd _ _ _ (nodup_curIdx db)
      have hL1 : lookupA (mergeIdx1 db order) k =
          if (lookupA (curIdx db) k).isSome then lookupA db.index k
          else oor (lookupA (mergeW db order).2.1 k) (lookupA db.index k) := by
        rw [mergeIdx1]
        exact lookupA_foldUpdIf (fun key => (lookupA (curIdx db) key).isSome)
          (mergeW db order).2.1 db.index k (nodup_newIdx db order)
      rw [hL, hL1, lookupA_curIdx]
      cases hc : lastHit db.current.frames k 0 with
      | some r => simp [oor]
      | none =>
        simp only [Option.map_none', Option.isSome_none, Bool.false_eq_true,
          if_false, oor_none]
        rw [lookupA_newIdx]
        cases hm : lastHit (mergeW db order).1 k 0 with
        | some r => simp [oor]
        | none =>
          simp only [Option.map_none', oor_none]
          rw [h.good k, lookupA_recAll]
          have hAFold : db.allFrames =
              (db.segments.map (fun s => s.file.frames)) ++ [db.current.frames] := rfl
          rw [hAFold, gHit_append]
          have hsegs : gHit (db.segments.map (fun s => s.file.frames)) k = none := by
            have hdn := mergeData_none_of_noHit db order hord k hm
            rw [lookupA_mergeData] at hdn
            exact Option.map_eq_none'.mp hdn
          have hcone : gHit [db.current.frames] k = none := by
            simp [gHit, hc]
          rw [hcone]
          simp [hsegs, lookupA, oor]

theorem latestVal_eq_map (fs : List (List entry)) (k : String) :
    latestVal fs k = (gHit fs k).map (fun r => r.2.2.value) := by
  rw [latestVal]
  cases gHit fs k <;> rfl

theorem gHit_single (f : List entry) (k : String) :
    gHit [f] k =
      match lastHit f k 0 with
      | some r => some (f, r.1, r.2)
      | none => none := rfl

/-- Merging does not change any key's authoritative record value: the latest
on-disk record for each key (by global append order) has the same value
before and after `MergeSegments`. -/
theorem merge_latestVal (db : Db) (t : Nat) (order : List String)
    (h2 : ¬ db.segments.length < 2) (hord : validOrder order (mergeData db))
    (k : String) :
    latestVal (db.MergeSegments t order).allFrames k = latestVal db.allFrames k := by
  rw [merge_unfold db t order h2]
  have hAF :
      ({ db with
         segments := [⟨t, ⟨(mergeW db order).1, 0⟩⟩]
         index := mergeIdx2 db order } : Db).allFrames =
        [(mergeW db order).1, db.current.frames] := by
    simp [Db.allFrames]
  rw [hAF]
  have hAFold : db.allFrames =
      (db.segments.map (fun s => s.file.frames)) ++ [db.current.frames] := rfl
  rw [latestVal_eq_map, latestVal_eq_map, hAFold]
  have hsplit : ([(mergeW db order).1, db.current.frames] : List (List entry)) =
      [(mergeW db order).1] ++ [db.current.frames] := rfl
  rw [hsplit, gHit_append, gHit_append]
  cases hc : lastHit db.current.frames k 0 with
  | some r => rw [gHit_single, hc]
  | none =>
    rw [gHit_single, hc]
    simp only []
    rw [gHit_single]
    cases hm : lastHit (mergeW db order).1 k 0 with
    | some r =>
      obtain ⟨o, e⟩ := r
      have hmem : e ∈ (mergeW db order).1 := lastHit_mem _ _ _ _ _ hm
      have hkey : e.key = k := (lastHit_spec _ _ _ _ _ hm).1
      have hdata : lookupA (mergeData db) k = some e.value := by
        rw [mergeW, writeMerged_frames] at hmem
        obtain ⟨k', hk', hf⟩ := List.mem_filterMap.mp hmem
        obtain ⟨v, hv, hev⟩ := Option.map_eq_some'.mp hf
        have : k' = e.key := by rw [← hev]
        rw [← hkey, ← this]
        rw [hv, ← hev]
      rw [lookupA_mergeData] at hdata
      obtain ⟨r', hr', hv'⟩ := Option.map_eq_some'.mp hdata
      rw [hr']
      simp [hv']
    | none =>
      have hdn := mergeData_none_of_noHit db order hord k hm
      rw [lookupA_mergeData] at hdn
      rw [Option.map_eq_none'.mp hdn]

/-- A key that has a record in the current file keeps its (current-file)
index locator across a merge: `MergeSegments` does not re-point it at the
new segment. -/
theorem merge_keeps_current (db : Db) (t : Nat) (order : List String)
    (h : DbInv db) (h2 : ¬ db.segments.length < 2) (k : String)
    (hcur : (lookupA (curIdx db) k).isSome) :
    lookupA (db.MergeSegments t order).index k = lookupA db.index k := by
  rw [merge_unfold db t order h2]
  have hL : lookupA (mergeIdx2 db order) k =
      oor (lookupA (curIdx db) k) (lookupA (mergeIdx1 db order) k) := by
    rw [mergeIdx2]
    exact lookupA_foldUpd _ _ _ (nodup_curIdx db)
  show lookupA (mergeIdx2 db order) k = lookupA db.index k
  rw [hL]
  cases hc : lookupA (curIdx db) k with
  | none => rw [hc] at hcur; simp at hcur
  | some o =>
    rw [oor_some]
    rw [h.good k, lookupA_recAll]
    have hAFold : db.allFrames =
        (db.segments.map (fun s => s.file.frames)) ++ [db.current.frames] := rfl
    rw [hAFold, gHit_append]
    rw [lookupA_curIdx] at hc
    cases hlast : lastHit db.current.frames k 0 with
    | none => rw [hlast] at hc; cases hc
    | some r =>
      rw [hlast] at hc
      have hr : r.1 = o := by simpa using hc
      have hg1 : gHit [db.current.frames] k = some (db.current.frames, r.1, r.2) := by
        rw [gHit_single, hlast]
      rw [hg1]
      simp [oor, hr]

/-- Under the invariant, every indexed key's locator decodes: the stored
offset is the offset of a record with that key inside the authoritative
(latest-containing) file. -/
theorem goodIndex_decodes (db : Db) (h : DbInv db) (k : String) (o : Nat)
    (hl : lookupA db.index k = some o) :
    ∃ f e, gHit db.allFrames k = some (f, o, e) ∧ f ∈ db.allFrames ∧
      decodeAt f o = some e ∧ e.key = k := by
  rw [h.good k, lookupA_recAll] at hl
  cases hg : gHit db.allFrames k with
  | none => rw [hg] at hl; simp [oor, lookupA] at hl
  | some r =>
    rw [hg] at hl
    have ho : r.2.1 = o := by simpa [oor] using hl
    obtain ⟨hm, hd, hk⟩ := gHit_spec db.allFrames k r.1 r.2.1 r.2.2 hg
    refine ⟨r.1, r.2.2, ?_, hm, ?_, hk⟩
    · rw [← ho]
    · rw [← ho]
      exact hd

/-- The directory written by an engine state: its segment files (named by
their numeric suffixes) followed by `current-data`. -/
def dirOf (db : Db) : List DEnt :=
  db.segments.map (fun s => DEnt.seg s.suffix s.file) ++ [DEnt.cur db.current]

theorem segsOf_mapseg (l : List Seg) (rest : List DEnt) :
    segsOf (l.map (fun s => DEnt.seg s.suffix s.file) ++ rest) = l ++ segsOf rest := by
  induction l with
  | nil => simp [segsOf]
  | cons s l' ih => simp [segsOf, ih]

theorem segsOf_dirOf (db : Db) : segsOf (dirOf db) = db.segments := by
  rw [dirOf, segsOf_mapseg]
  simp [segsOf]

theorem curOf_mapseg (l : List Seg) (rest : List DEnt) :
    curOf (l.map (fun s => DEnt.seg s.suffix s.file) ++ rest) = curOf rest := by
  induction l with
  | nil => rfl
  | cons s l' ih => simpa [curOf] using ih

theorem curOf_dirOf (db : Db) : curOf (dirOf db) = db.current := by
  rw [dirOf, curOf_mapseg]
  rfl

theorem insSeg_le (s : Seg) (l : List Seg) (h : ∀ x ∈ l, s.suffix ≤ x.suffix) :
    insSeg s l = s :: l := by
  cases l with
  | nil => rfl
  | cons y ys => rw [insSeg, if_pos (h y (List.mem_cons_self _ _))]

theorem insSort_eq_self (l : List Seg)
    (h : l.Pairwise (fun a b => a.suffix ≤ b.suffix)) : insSort l = l := by
  induction l with
  | nil => rfl
  | cons x xs ih =>
    rw [List.pairwise_cons] at h
    rw [insSort, ih h.2, insSeg_le x xs h.1]

theorem recoverAll_clean (segs : List Seg) (idx : List (String × Nat))
    (h : ∀ s ∈ segs, s.file.torn = 0) :
    recoverAll segs idx =
      Except.ok (recAll (segs.map fun s => s.file.frames) idx) := by
  induction segs generalizing idx with
  | nil => rfl
  | cons s rest ih =>
    have hs : s.file.torn = 0 := h s (List.mem_cons_self _ _)
    rw [recoverAll, recoverFromFile, if_neg (by simp [hs])]
    show recoverAll rest (recFile s.file.frames idx 0).1 =
      Except.ok (recAll (List.map (fun s => s.file.frames) (s :: rest)) idx)
    rw [ih _ (fun x hx => h x (List.mem_cons_of_mem _ hx))]
    simp [recAll]

/-- A clean close followed by an open of the same directory succeeds and
rebuilds exactly the recovery index over the files in global append order,
with the writer's offset restored to the current file's size. -/
theorem openDb_reopen (db : Db) (h : DbInv db) :
    openDb (dirOf db) db.maxSegmentSize =
      Except.ok
        { current := db.current
          outOffset := db.outOffset
          maxSegmentSize := db.maxSegmentSize
          index := recAll db.allFrames []
          segments := db.segments } := by
  have hsort : insSort (segsOf (dirOf db)) = db.segments := by
    rw [segsOf_dirOf]
    exact insSort_eq_self _ (h.sorted.imp (fun hab => Nat.le_of_lt hab))
  have hidx : (recFile db.current.frames
      (recAll (db.segments.map fun s => s.file.frames) []) 0).1 =
      recAll db.allFrames [] := by
    have : db.allFrames =
        (db.segments.map fun s => s.file.frames) ++ [db.current.frames] := rfl
    rw [this, recAll_concat]
  have hoff : (recFile db.current.frames
      (recAll (db.segments.map fun s => s.file.frames) []) 0).2 =
      db.outOffset := by
    rw [recFile_offset, h.off_eq]
    omega
  have hct := h.clean_cur
  simp [openDb, hsort, curOf_dirOf, recoverAll_clean _ _ h.clean_segs,
    recoverCurrent, hct, hidx, hoff]

/-- `Get` depends only on the index's lookups, the current file and the
segment list. -/
theorem Get_congr (a b : Db) (hc : a.current = b.current) (hs : a.segments = b.segments)
    (hi : ∀ k, lookupA a.index k = lookupA b.index k) (k : String) :
    a.Get k = b.Get k := by
  simp only [Db.Get, hi k, hc, hs]

theorem wstep_written_mono (s s' : EngineState) (h : WStep s s') :
    ∀ r ∈ s.written, r ∈ s'.written := by
  cases h with
  | enqueue r hq => intro x hx; exact hx
  | refuseClosed h => intro x hx; exact hx
  | serve r rest t hq hw => intro x hx; exact List.mem_append_left _ hx
  | signalShutdown => intro x hx; exact hx
  | exitWriter hc hq hw => intro x hx; exact hx

theorem wsteps_written_mono (a b : EngineState) (h : WSteps a b) :
    ∀ r ∈ a.written, r ∈ b.written := by
  induction h with
  | refl s => intro r hr; exact hr
  | step h1 h2 ih => intro r hr; exact ih r (wstep_written_mono _ _ h1 r hr)

/-- Drain discipline of `writerLoop`: along any schedule on which the writer
eventually exits, every request that was in the queue when the writer was
still running has been performed (is among the written requests) by the time
it exits — `writerLoop` leaves its drain loop only through the `default`
case, which requires an empty queue. -/
theorem writer_drains (s s' : EngineState) (h : WSteps s s') :
    s.writerDone = false → s'.writerDone = true → ∀ r ∈ s.queue, r ∈ s'.written := by
  induction h with
  | refl s0 =>
    intro h0 h1 r hr
    rw [h0] at h1
    cases h1
  | step hstep hrest ih =>
    intro h0 h1 r hr
    cases hstep with
    | enqueue r0 hq =>
      exact ih h0 h1 r (List.mem_append_left _ hr)
    | refuseClosed hcl => exact ih h0 h1 r hr
    | serve r0 rest t hq hw =>
      rw [hq] at hr
      rcases List.mem_cons.mp hr with hr0 | hr1
      · subst hr0
        exact wsteps_written_mono _ _ hrest r
          (List.mem_append_right _ (List.mem_singleton_self r))
      · exact ih hw h1 r hr1
    | signalShutdown => exact ih h0 h1 r hr
    | exitWriter hc hq hw =>
      rw [hq] at hr
      cases hr

/-- Discard the torn tails of all segment files, keeping their sound
frames. -/
def scrubSegs (db : Db) : Db :=
  { db with segments := db.segments.map (fun s => ⟨s.suffix, ⟨s.file.frames, 0⟩⟩) }

theorem mergeData_scrub (db : Db) : mergeData (scrubSegs db) = mergeData db := by
  rw [mergeData, mergeData, scrubSegs]
  simp [List.foldl_map, readSegIntoMap]

/-- `MergeSegments` is blind to torn segment tails: its read loop stops at
the end-of-stream signal without checking the residual byte count, so it
behaves exactly as if every segment were clean (the partial tails are
silently dropped). -/
theorem merge_blind_to_torn (db : Db) (t : Nat) (order : List String)
    (h2 : ¬ db.segments.length < 2) :
    db.MergeSegments t order = (scrubSegs db).MergeSegments t order := by
  have h2' : ¬ (scrubSegs db).segments.length < 2 := by
    simpa [scrubSegs] using h2
  rw [merge_unfold db t order h2, merge_unfold _ t order h2']
  have hdata : mergeW (scrubSegs db) order = mergeW db order := by
    rw [mergeW, mergeW, mergeData_scrub]
  have hcur : curIdx (scrubSegs db) = curIdx db := rfl
  have hind : (scrubSegs db).index = db.index := rfl
  have hidx : mergeIdx2 (scrubSegs db) order = mergeIdx2 db order := by
    rw [mergeIdx2, mergeIdx2, mergeIdx1, mergeIdx1, hdata, hcur, hind]
  rw [hdata, hidx]
  rfl

/-- The largest single encoded record in a file (0 for an empty file). -/
def maxRec (f : List entry) : Nat := (f.map encLen).foldr max 0

/-- Size discipline of the closed segments: each segment's size is bounded
by the rotation threshold plus its largest single record. -/
def segsSizeOk (db : Db) : Prop :=
  ∀ s ∈ db.segments,
    byteLen s.file.frames ≤ db.maxSegmentSize + maxRec s.file.frames

/-- Size discipline of the current file: within the rotation threshold, or a
single (possibly oversized) record. -/
def curSizeOk (db : Db) : Prop :=
  byteLen db.current.frames ≤ db.maxSegmentSize ∨ ∃ e, db.current.frames = [e]

theorem sizeOk_performWrite (db : Db) (t : Nat) (k v : String)
    (hcln : db.current.torn = 0) (hc : curSizeOk db) (hs : segsSizeOk db) :
    curSizeOk (db.performWrite t k v) ∧ segsSizeOk (db.performWrite t k v) := by
  by_cases hrot : db.currentSizeB + encLen ⟨k, v⟩ > db.maxSegmentSize
  · rw [performWrite_rot db t k v hrot]
    constructor
    · right
      exact ⟨⟨k, v⟩, rfl⟩
    · intro s hsm
      rcases List.mem_append.mp hsm with hm | hm
      · exact hs s hm
      · have hse : s = ⟨t, db.current⟩ := by simpa using hm
        subst hse
        rcases hc with hle | ⟨e0, he⟩
        · exact Nat.le_trans hle (Nat.le_add_right _ _)
        · show byteLen db.current.frames ≤ db.maxSegmentSize + maxRec db.current.frames
          rw [he]
          simp [byteLen, maxRec]
  · rw [performWrite_norot db t k v hrot]
    constructor
    · left
      show byteLen (db.current.frames ++ [⟨k, v⟩]) ≤ db.maxSegmentSize
      rw [byteLen_append]
      have hsz : db.currentSizeB = byteLen db.current.frames + db.current.torn := rfl
      have hb : byteLen [(⟨k, v⟩ : entry)] = encLen ⟨k, v⟩ := by simp [byteLen]
      omega
    · intro s hsm
      exact hs s hsm

theorem idxCheck_eqv (a b : List (String × Nat)) (h : idxCheck a b = true) :
    ∀ k, lookupA a k = lookupA b k := by
  intro k
  by_cases hk : k ∈ keysA a ++ keysA b
  · have hall := List.all_eq_true.mp h k hk
    exact beq_iff_eq.mp hall
  · have ha : k ∉ keysA a := fun hm => hk (List.mem_append_left _ hm)
    have hb : k ∉ keysA b := fun hm => hk (List.mem_append_right _ hm)
    rw [(lookupA_eq_none_iff a k).mpr ha, (lookupA_eq_none_iff b k).mpr hb]

/-- Assemble the engine invariant from decidable checks (used to certify
concrete reachable states). -/
theorem dbInv_of_checks (db : Db)
    (h1 : ∀ s ∈ db.segments, s.file.torn = 0)
    (h2 : db.current.torn = 0)
    (h3 : db.segments.Pairwise (fun a b => a.suffix < b.suffix))
    (h4 : db.outOffset = byteLen db.current.frames)
    (h5 : idxCheck db.index (recAll db.allFrames []) = true) : DbInv db :=
  ⟨h1, h2, h3, h4, idxCheck_eqv _ _ h5⟩

/-- The full probe sequence of `Get` once the index lookup has produced an
offset: the current file first, then the segments from newest to oldest, all
at the same offset — defined without ever looking at the requested key. -/
def probeAll (cur : DiskFile) (segs : List Seg) (pos : Nat) : Option String :=
  match getFromFile cur pos with
  | some v => some v
  | none => probeList segs.reverse pos

/-- A freshly opened engine over an empty directory. -/
def dbEmpty (m : Nat) : Db :=
  { current := ⟨[], 0⟩, outOffset := 0, maxSegmentSize := m, index := [], segments := [] }

/-- `maxSegmentSize = 20`, then `Put("a","1")`: the 14-byte frame fits, "a"
is indexed at offset 0 of the current file. -/
def exA : Db := (dbEmpty 20).performWrite 1 "a" "1"

/-- Then `Put("b","2")`: 14 + 14 > 20, so the writer rotates (the current
file holding "a" becomes segment 2) and writes "b" at offset 0 of the fresh
current file.  The index still maps "a" to offset 0 — now aliased by "b"'s
record in the current file. -/
def exB : Db := exA.performWrite 2 "b" "2"

/-- `maxSegmentSize = 14`: `Put("a","1")`, `Put("c","3")`, `Put("b","2")`
each rotate the previous record out, yielding segments `[("a","1")]` and
`[("c","3")]` and current file `[("b","2")]`, with every key indexed at
offset 0. -/
def exM0 : Db :=
  (((dbEmpty 14).performWrite 1 "a" "1").performWrite 2 "c" "3").performWrite 3 "b" "2"

/-- `MergeSegments` on `exM0` with map iteration order `["c","a"]`: the
merged segment is `[("c","3"),("a","1")]`, and "a" is re-pointed to offset
14 of the new segment. -/
def exM1 : Db := exM0.MergeSegments 4 ["c", "a"]

/-- `maxSegmentSize = 10`, then a first `Put` whose 14-byte frame already
exceeds the threshold: the writer rotates the *empty* current file into a
segment before appending. -/
def exC4 : Db := (dbEmpty 10).performWrite 1 "a" "x"

/-- An engine whose first segment has a 5-byte torn tail after one sound
record, plus a clean second segment. -/
def exTorn : Db :=
  { current := ⟨[], 0⟩
    outOffset := 0
    maxSegmentSize := 100
    index := [("a", 0), ("b", 0)]
    segments := [⟨1, ⟨[⟨"a", "1"⟩], 5⟩⟩, ⟨2, ⟨[⟨"b", "2"⟩], 0⟩⟩] }

/-- A request submitted to the writer queue. -/
def req1 : WriteReq := ⟨"k", "v"⟩

/-- Shutdown has been signalled (`Close` ran `close(db.shutdown)`); the
queue is empty and the writer is still draining. -/
def es0 : EngineState :=
  { db := dbEmpty 20, queue := [], closed := true, writerDone := false, written := [] }

/-- After shutdown, a `Put` wins the `select` race and enqueues `req1`. -/
def es1 : EngineState :=
  { db := dbEmpty 20, queue := [req1], closed := true, writerDone := false, written := [] }

/-- The draining writer serves `req1`: the post-shutdown request is
performed, not refused. -/
def es2 : EngineState :=
  { db := (dbEmpty 20).performWrite 5 "k" "v", queue := [], closed := true,
    writerDone := false, written := [req1] }

/-- The writer then exits through the empty-queue `default` case. -/
def es3 : EngineState :=
  { db := (dbEmpty 20).performWrite 5 "k" "v", queue := [], closed := true,
    writerDone := true, written := [req1] }

/-- C1: the claim "after Put(k,v) completes and no later Put for k has
completed, Get(k) returns v, regardless of any segment rotations" is right
as a specification, but the code violates it.  Evaluating the model at the
failing input: open an empty directory with maxSegmentSize 20, Put("a","1"),
then Put("b","2") (which rotates).  No later Put for "a" ever happened, yet
Get("a") returns "2" — the value written under "b" — because Get probes the
current file first at "a"'s stale offset 0 and never compares the decoded
record's key.  (Get("a") on the intermediate state, before the rotation,
still returned "1".) -/
theorem c1_put_then_get_code_flaw :
    openDb [] 20 = Except.ok (dbEmpty 20) ∧
    exA.Get "a" = some "1" ∧
    exB.Get "a" = some "2" ∧
    exB.Get "b" = some "2" ∧
    lookupA exB.index "a" = some 0 := by
  exact ⟨rfl, by decide, by decide, by decide, by decide⟩

/-- C9: `Get(k)`, for a key present in the index, returns the value of the
first record that decodes at the stored offset — current file first, then
segments newest to oldest at the same offset — never comparing the decoded
record's key with `k`; consequently, in the reachable state `exB`
(open-empty, Put("a","1"), Put("b","2") with a rotation in between),
Get("a") returns "2", a value only ever written under the different key
"b". -/
theorem c9_get_is_key_blind :
    (∀ (db : Db) (k : String) (pos : Nat), lookupA db.index k = some pos →
      db.Get k = probeAll db.current db.segments pos) ∧
    (openDb [] 20 = Except.ok (dbEmpty 20) ∧
      exB.Get "a" = some "2" ∧
      (∀ e ∈ exB.current.frames, e.value = "2" → e.key = "b") ∧
      (∀ s ∈ exB.segments, ∀ e ∈ s.file.frames, e.value = "2" → e.key = "b") ∧
      "a" ≠ "b") := by
  constructor
  · intro db k pos h
    simp only [Db.Get, h, probeAll]
  · exact ⟨rfl, by decide, by decide, by decide, by decide⟩

/-- Witness for C9 at the concrete reachable state `exB` and key "a"
(indexed at offset 0). -/
theorem c9_get_is_key_blind_witness :
    exB.Get "a" = probeAll exB.current exB.segments 0 :=
  c9_get_is_key_blind.1 exB "a" 0 (by decide)

/-- C5: the engine-state invariant.  Under `DbInv` — every file clean,
segment suffixes strictly ascending, writer offset equal to the current
file's size, and the index's lookups equal to the recovery fold over the
files in global append order — (i) every indexed key's offset decodes, in
the authoritative file (`gHit` picks the last record of the last file
containing the key, i.e. the latest record in global append order: current
over newest segment over older segments), to a record carrying that key;
and the invariant is preserved by (ii) `performWrite` (with a fresh rotation
timestamp) and (iii) `MergeSegments` (with any map iteration order). -/
theorem c5_index_invariant :
    (∀ (db : Db), DbInv db → ∀ (k : String) (o : Nat),
      lookupA db.index k = some o →
      ∃ f e, gHit db.allFrames k = some (f, o, e) ∧ f ∈ db.allFrames ∧
        decodeAt f o = some e ∧ e.key = k) ∧
    (∀ (db : Db) (t : Nat) (k v : String), DbInv db →
      (∀ s ∈ db.segments, s.suffix < t) → DbInv (db.performWrite t k v)) ∧
    (∀ (db : Db) (t : Nat) (order : List String), DbInv db →
      validOrder order (mergeData db) → DbInv (db.MergeSegments t order)) :=
  ⟨fun db h k o hl => goodIndex_decodes db h k o hl,
   fun db t k v h hf => dbInv_performWrite db t k v h hf,
   fun db t order h ho => dbInv_merge db t order h ho⟩

/-- Witness for C5 at the concrete reachable state `exB` (one rotation
behind it): its invariant holds, "a" decodes at its locator in the
designated file, and the invariant survives a further write and a merge. -/
theorem c5_index_invariant_witness :
    (∃ f e, gHit exB.allFrames "a" = some (f, 0, e) ∧ f ∈ exB.allFrames ∧
      decodeAt f 0 = some e ∧ e.key = "a") ∧
    DbInv (exB.performWrite 3 "x" "y") ∧
    DbInv (exB.MergeSegments 3 ["a"]) := by
  have hInv : DbInv exB :=
    dbInv_of_checks exB (by decide) (by decide) (by decide) (by decide) (by decide)
  refine ⟨c5_index_invariant.1 exB hInv "a" 0 (by decide),
    c5_index_invariant.2.1 exB 3 "x" "y" hInv (by decide),
    c5_index_invariant.2.2 exB 3 ["a"] hInv ⟨by decide, by decide, by decide⟩⟩

/-- C2: durability across reopen.  For an engine with no in-flight writes
that satisfies the state invariant, closing and reopening the same
directory succeeds, the index rebuilt by recovery (segments replayed in
ascending numeric-suffix order, then the current file) has exactly the same
lookups as the in-memory index just before close, and Get agrees on every
key. -/
theorem c2_durability_reopen (db : Db) (h : DbInv db) :
    ∃ db', openDb (dirOf db) db.maxSegmentSize = Except.ok db' ∧
      (∀ k, lookupA db'.index k = lookupA db.index k) ∧
      (∀ k, db'.Get k = db.Get k) := by
  refine ⟨_, openDb_reopen db h, ?_, ?_⟩
  · intro k
    exact (h.good k).symm
  · intro k
    apply Get_congr
    · rfl
    · rfl
    · intro k'
      exact (h.good k').symm

/-- Witness for C2 at the concrete reachable state `exB`. -/
theorem c2_durability_reopen_witness :
    ∃ db', openDb (dirOf exB) exB.maxSegmentSize = Except.ok db' ∧
      (∀ k, lookupA db'.index k = lookupA exB.index k) ∧
      (∀ k, db'.Get k = exB.Get k) :=
  c2_durability_reopen exB
    (dbInv_of_checks exB (by decide) (by decide) (by decide) (by decide) (by decide))

/-- C3 counterexample: the claim "for every key present before the merge,
Get(k) returns the same value after the merge" fails on the code at a
reachable state.  With maxSegmentSize 14, Put("a","1"); Put("c","3");
Put("b","2") leaves two segments and every key indexed at offset 0;
`["c","a"]` is a possible Go map iteration order for the merged data.
Before the merge Get("a") = "2" (offset aliasing with "b"'s record in the
current file), after the merge "a" is re-pointed to offset 14 of the new
segment and Get("a") = "1" — the observed value changes across the merge. -/
theorem c3_counterexample_get_changes_after_merge :
    openDb [] 14 = Except.ok (dbEmpty 14) ∧
    2 ≤ exM0.segments.length ∧
    validOrder ["c", "a"] (mergeData exM0) ∧
    exM0.Get "a" = some "2" ∧
    exM1.Get "a" = some "1" := by
  exact ⟨rfl, by decide, ⟨by decide, by decide, by decide⟩, by decide, by decide⟩

/-- C3 (amended): with at least two closed segments, `MergeSegments`
(i) reduces the segment list to exactly one segment; (ii) preserves, for
every key, the value of the key's authoritative (latest, by global append
order) on-disk record; and (iii) leaves the index locator of every key that
has a record in the current file unchanged (such keys are not re-pointed to
the new segment).  The observable `Get(k)` itself, however, can change
across a merge when the key's offset aliases a decodable record of another
file (see the counterexample). -/
theorem c3_merge_amended :
    (∀ (db : Db) (t : Nat) (order : List String), 2 ≤ db.segments.length →
      (db.MergeSegments t order).segments.length = 1) ∧
    (∀ (db : Db) (t : Nat) (order : List String), 2 ≤ db.segments.length →
      validOrder order (mergeData db) →
      ∀ k, latestVal (db.MergeSegments t order).allFrames k =
        latestVal db.allFrames k) ∧
    (∀ (db : Db) (t : Nat) (order : List String), DbInv db →
      2 ≤ db.segments.length →
      ∀ k, (lookupA (curIdx db) k).isSome →
        lookupA (db.MergeSegments t order).index k = lookupA db.index k) := by
  refine ⟨?_, ?_, ?_⟩
  · intro db t order h2
    rw [merge_unfold db t order (by omega)]
    rfl
  · intro db t order h2 hord k
    exact merge_latestVal db t order (by omega) hord k
  · intro db t order h h2 k hk
    exact merge_keeps_current db t order h (by omega) k hk

/-- Witness for the amended C3 at the concrete reachable state `exM0`. -/
theorem c3_merge_amended_witness :
    (exM0.MergeSegments 4 ["c", "a"]).segments.length = 1 ∧
    latestVal (exM0.MergeSegments 4 ["c", "a"]).allFrames "a" =
      latestVal exM0.allFrames "a" ∧
    lookupA (exM0.MergeSegments 4 ["c", "a"]).index "b" = lookupA exM0.index "b" := by
  have hInv : DbInv exM0 :=
    dbInv_of_checks exM0 (by decide) (by decide) (by decide) (by decide) (by decide)
  exact ⟨c3_merge_amended.1 exM0 4 ["c", "a"] (by decide),
    c3_merge_amended.2.1 exM0 4 ["c", "a"] (by decide)
      ⟨by decide, by decide, by decide⟩ "a",
    c3_merge_amended.2.2 exM0 4 ["c", "a"] hInv (by decide) "b" (by decide)⟩

/-- C4 counterexample: the claim "every closed segment contains at least one
record" fails on the code.  With maxSegmentSize 10 and an empty freshly
opened engine, the very first Put of a 14-byte frame satisfies S + L > max
with S = 0, so the writer rotates the *empty* current file into a segment
before appending — producing a closed segment with zero records. -/
theorem c4_counterexample_empty_segment :
    openDb [] 10 = Except.ok (dbEmpty 10) ∧
    encLen ⟨"a", "x"⟩ > 10 ∧
    exC4.segments = [⟨1, ⟨[], 0⟩⟩] ∧
    exC4.current.frames = [⟨"a", "x"⟩] := by
  exact ⟨rfl, by decide, by decide, by decide⟩

/-- C4 (amended): when the stat size S of the current file plus the encoded
frame length L exceeds maxSegmentSize, `performWrite` first rotates (the
current file becomes the newest segment, offset resets to zero) and then
appends, so a single record with L > maxSegmentSize is still written (it
becomes the sole frame of the fresh current file); otherwise it appends in
place.  Every closed segment's size stays bounded by maxSegmentSize plus
its largest single record — but a closed segment can be empty (see the
counterexample), so "at least one record per segment" does not hold. -/
theorem c4_rotation_amended :
    (∀ (db : Db) (t : Nat) (k v : String),
      db.currentSizeB + encLen ⟨k, v⟩ > db.maxSegmentSize →
      db.performWrite t k v =
        { db with
          segments := db.segments ++ [⟨t, db.current⟩]
          current := ⟨[⟨k, v⟩], 0⟩
          index := updA db.index k 0
          outOffset := encLen ⟨k, v⟩ }) ∧
    (∀ (db : Db) (t : Nat) (k v : String),
      ¬ db.currentSizeB + encLen ⟨k, v⟩ > db.maxSegmentSize →
      db.performWrite t k v =
        { db with
          current := ⟨db.current.frames ++ [⟨k, v⟩], db.current.torn⟩
          index := updA db.index k db.outOffset
          outOffset := db.outOffset + encLen ⟨k, v⟩ }) ∧
    (∀ (db : Db) (t : Nat) (k v : String), db.current.torn = 0 →
      curSizeOk db → segsSizeOk db →
      curSizeOk (db.performWrite t k v) ∧ segsSizeOk (db.performWrite t k v)) :=
  ⟨performWrite_rot, performWrite_norot, sizeOk_performWrite⟩

/-- Witness for the amended C4: the oversized first Put on `dbEmpty 10`
takes the rotation path, a small Put on `dbEmpty 20` takes the plain path,
and the size discipline is preserved across the oversized write. -/
theorem c4_rotation_amended_witness :
    (dbEmpty 10).performWrite 1 "a" "x" =
      { dbEmpty 10 with
        segments := [⟨1, ⟨[], 0⟩⟩]
        current := ⟨[⟨"a", "x"⟩], 0⟩
        index := updA [] "a" 0
        outOffset := encLen ⟨"a", "x"⟩ } ∧
    (dbEmpty 20).performWrite 1 "a" "1" =
      { dbEmpty 20 with
        current := ⟨[⟨"a", "1"⟩], 0⟩
        index := updA [] "a" 0
        outOffset := encLen ⟨"a", "1"⟩ } ∧
    (curSizeOk ((dbEmpty 10).performWrite 1 "a" "x") ∧
      segsSizeOk ((dbEmpty 10).performWrite 1 "a" "x")) := by
  refine ⟨c4_rotation_amended.1 (dbEmpty 10) 1 "a" "x" (by decide),
    c4_rotation_amended.2.1 (dbEmpty 20) 1 "a" "1" (by decide),
    c4_rotation_amended.2.2 (dbEmpty 10) 1 "a" "x" (by decide)
      (Or.inl (by decide)) ?_⟩
  intro s hs
  exact absurd hs (List.not_mem_nil s)

/-- C6: the claim says Open deletes a leftover `temp-merged-<suffix>` file;
the code never does.  Nothing on the open path removes any file (the only
`os.Remove` calls in db.go are inside `MergeSegments`), so after opening a
directory holding only a leftover temp-merged file, the file is still
there, and the open succeeds with an empty engine (the temp file is not
even scanned: `recover` only collects `segment-` names). -/
theorem c6_open_keeps_temp :
    (∀ (d : List DEnt) (x : DEnt), x ∈ d → x ∈ openDirAfter d) ∧
    DEnt.temp 7 ⟨[], 0⟩ ∈ openDirAfter [DEnt.temp 7 ⟨[], 0⟩] ∧
    openDb [DEnt.temp 7 ⟨[], 0⟩] 100 = Except.ok (dbEmpty 100) := by
  refine ⟨?_, by decide, rfl⟩
  intro d x hx
  rw [openDirAfter]
  by_cases h : hasCur d
  · rw [if_pos h]
    exact hx
  · rw [if_neg h]
    exact List.mem_append_left _ hx

/-- Witness for C6: the temp-merged entry of a concrete directory survives
the open. -/
theorem c6_open_keeps_temp_witness :
    DEnt.temp 9 ⟨[⟨"k", "v"⟩], 0⟩ ∈
      openDirAfter [DEnt.temp 9 ⟨[⟨"k", "v"⟩], 0⟩, DEnt.cur ⟨[], 0⟩] :=
  c6_open_keeps_temp.1 _ _ (by decide)

/-- C7: walking a file during recovery, a torn trailing frame (end-of-stream
with nonzero bytes consumed) yields the corruption error carrying that
file's name, and the error aborts Open — both for a segment file (the
error names `segment-<suffix>`) and for the current file (the error names
`current-data`); a clean end-of-stream at a record boundary ends the walk
with the updated index. -/
theorem c7_corruption_on_partial_tail :
    (∀ (name : String) (f : DiskFile) (idx : List (String × Nat)), f.torn ≠ 0 →
      recoverFromFile name f idx = Except.error ("corrupted file: " ++ name)) ∧
    (∀ (name : String) (f : DiskFile) (idx : List (String × Nat)), f.torn = 0 →
      recoverFromFile name f idx = Except.ok (recFile f.frames idx 0).1) ∧
    (∀ (f : DiskFile) (idx : List (String × Nat)), f.torn ≠ 0 →
      recoverCurrent f idx = Except.error ("corrupted file: current-data")) ∧
    openDb [DEnt.seg 5 ⟨[⟨"k", "v"⟩], 3⟩] 100 =
      Except.error ("corrupted file: " ++ ("segment-" ++ toString 5)) ∧
    openDb [DEnt.cur ⟨[⟨"k", "v"⟩], 2⟩] 100 =
      Except.error ("corrupted file: current-data") := by
  refine ⟨?_, ?_, ?_, rfl, rfl⟩
  · intro name f idx h
    rw [recoverFromFile, if_pos h]
  · intro name f idx h
    rw [recoverFromFile, if_neg (by simp [h])]
  · intro f idx h
    rw [recoverCurrent, if_pos h]

/-- Witness for C7 at concrete files: a torn segment errors with its name, a
clean file recovers, a torn current file errors. -/
theorem c7_corruption_on_partial_tail_witness :
    recoverFromFile "segment-1" ⟨[⟨"a", "1"⟩], 5⟩ [] =
      Except.error ("corrupted file: " ++ "segment-1") ∧
    recoverFromFile "segment-2" ⟨[⟨"b", "2"⟩], 0⟩ [] =
      Except.ok (recFile [⟨"b", "2"⟩] [] 0).1 ∧
    recoverCurrent ⟨[], 1⟩ [] = Except.error ("corrupted file: current-data") :=
  ⟨c7_corruption_on_partial_tail.1 "segment-1" _ [] (by decide),
   c7_corruption_on_partial_tail.2.1 "segment-2" _ [] (by decide),
   c7_corruption_on_partial_tail.2.2.1 _ [] (by decide)⟩

/-- C8 counterexample: the claim "every Put submitted after shutdown began
fails with the EngineClosed error rather than being written" fails on the
code.  From `es0` — shutdown already signalled (`closed = true`), empty
queue, writer still draining — a `Put` *can* take the send branch of its
`select` (after `close(db.shutdown)` both cases are ready and Go chooses
pseudo-randomly), enqueueing `req1`; the draining writer then serves it, so
the post-shutdown request ends up written (`Get "k" = "v"`), not refused. -/
theorem c8_counterexample_put_after_shutdown_written :
    es0.closed = true ∧ es0.queue = [] ∧ req1 ∉ es0.written ∧
    WStep es0 es1 ∧ WStep es1 es2 ∧
    req1 ∈ es2.written ∧ es2.db.Get "k" = some "v" := by
  refine ⟨rfl, rfl, by decide, ?_, ?_, by decide, by decide⟩
  · exact WStep.enqueue es0 req1 (by decide)
  · exact WStep.serve es1 req1 [] 5 rfl rfl

/-- C8 (amended): after shutdown is signalled, the writer does serve every
request that was queued while it was still running before it exits — the
writer can exit only from an empty queue, and dequeueing happens only by
performing the write — and a Put submitted after shutdown *may* fail with
EngineClosed (the shutdown branch of its select is always enabled once
`closed` holds); but such a Put is not *guaranteed* to fail: the select race
may enqueue it and the draining writer may write it (see the
counterexample). -/
theorem c8_shutdown_amended :
    (∀ (s s' : EngineState), WSteps s s' → s.writerDone = false →
      s'.writerDone = true → ∀ r ∈ s.queue, r ∈ s'.written) ∧
    (∀ (s : EngineState), s.closed = true → WStep s s) ∧
    (∀ (s s' : EngineState), WStep s s' → s'.writerDone = true →
      s.writerDone = true ∨ s.queue = []) := by
  refine ⟨writer_drains, ?_, ?_⟩
  · intro s h
    exact WStep.refuseClosed s h
  · intro s s' h hw
    cases h with
    | enqueue r hq => left; exact hw
    | refuseClosed hcl => left; exact hw
    | serve r rest t hq hw2 => left; exact hw
    | signalShutdown => left; exact hw
    | exitWriter hc hq hw2 => right; exact hq

/-- Witness for the amended C8: along the concrete schedule
`es1 → serve → es2 → exit → es3` the queued request is written before the
writer exits, and in the shutdown state `es0` the EngineClosed refusal step
is enabled. -/
theorem c8_shutdown_amended_witness :
    req1 ∈ es3.written ∧ WStep es0 es0 := by
  have hsteps : WSteps es1 es3 :=
    WSteps.step (WStep.serve es1 req1 [] 5 rfl rfl)
      (WSteps.step (WStep.exitWriter es2 rfl rfl rfl) (WSteps.refl es3))
  exact ⟨c8_shutdown_amended.1 es1 es3 hsteps rfl rfl req1 (by decide),
    c8_shutdown_amended.2.1 es0 rfl⟩

/-- C10: the merge path reads each segment only until the end-of-stream
signal and never checks the residual count, so it is literally blind to
torn tails: `readSegmentIntoMap` gives the same map on a torn file as on
its clean truncation, and `MergeSegments` on an engine with a torn segment
equals `MergeSegments` on the scrubbed engine (it completes, silently
dropping the partial tail) — whereas the recovery walk rejects the very
same file with a corruption error. -/
theorem c10_merge_ignores_torn_tails :
    (∀ (fr : List entry) (n : Nat) (d : List (String × String)),
      readSegIntoMap ⟨fr, n⟩ d = readSegIntoMap ⟨fr, 0⟩ d) ∧
    (∀ (db : Db) (t : Nat) (order : List String), 2 ≤ db.segments.length →
      db.MergeSegments t order = (scrubSegs db).MergeSegments t order) ∧
    (∀ (name : String) (f : DiskFile) (idx : List (String × Nat)), f.torn ≠ 0 →
      ∃ msg, recoverFromFile name f idx = Except.error msg) := by
  refine ⟨fun fr n d => rfl, ?_, ?_⟩
  · intro db t order h2
    exact merge_blind_to_torn db t order (by omega)
  · intro name f idx h
    exact ⟨_, by rw [recoverFromFile, if_pos h]⟩

/-- Witness for C10 at the concrete engine `exTorn`, whose first segment has
a 5-byte torn tail: the merge is unaffected by the tail, while recovery of
that same file reports corruption. -/
theorem c10_merge_ignores_torn_tails_witness :
    exTorn.MergeSegments 3 ["a", "b"] =
      (scrubSegs exTorn).MergeSegments 3 ["a", "b"] ∧
    ∃ msg, recoverFromFile "segment-1" ⟨[⟨"a", "1"⟩], 5⟩ [] = Except.error msg :=
  ⟨c10_merge_ignores_torn_tails.2.1 exTorn 3 ["a", "b"] (by decide),
   c10_merge_ignores_torn_tails.2.2 "segment-1" _ [] (by decide)⟩
